import Mathlib

/-!
Verification of the `javastyle-collection` PriorityQueue.

The repository implements a Java-style generic priority queue in Go:
a binary min-heap (`internalHeap`, driven by Go's `container/heap`
algorithms) under a three-way comparator, with an optional equality
function used by `Contains`/`Remove`.

Shallow embedding conventions:
* the backing slice `items` is a `List E`; the Go zero value of `E` is
  `default` from an `Inhabited E` instance;
* Go slice indices and lengths are unbounded naturals (no claim depends
  on index arithmetic overflowing int64); Go `int` *values* compared by
  `DefaultComparator` keep their 64-bit wraparound semantics (`wrap64`),
  which is what claims C5/C10 are about;
* a Go runtime panic is modelled by `Option`: `none` means the operation
  panics; operations that cannot panic are total functions;
* `float64` values are modelled as rationals: every finite float is a
  rational and `<` agrees; IEEE NaN and negative zero are outside the model;
* methods that mutate the receiver take the item list and return the new
  item list; read-only methods return the (unchanged) receiver state
  explicitly where a claim speaks about it.
-/

namespace JavastyleCollection

/-! ## util/util.go

`DefaultComparator[T]() Comparator[T]` switches on the dynamic type of its
arguments: `int` (subtraction, with Go's 64-bit wraparound), `float64`
(`-1`/`1`/`0` by `<` and `>`), `string` (`strings.Compare`, byte-wise
lexicographic, which on UTF-8 agrees with code-point lexicographic order),
and any other type (always `0`).  In any one queue both arguments have the
same element type `T`, so the four legs are embedded as four functions,
one per instantiation of `T`. -/

/-- Go 64-bit signed wraparound: reduce into `[-2^63, 2^63)`. -/
def wrap64 (x : Int) : Int := (x + 2 ^ 63) % 2 ^ 64 - 2 ^ 63

/-- `DefaultComparator` leg for `T = int`: `return aTyped - bTyped`
(Go `int` subtraction wraps around at 64 bits). -/
def DefaultComparatorInt (a b : Int) : Int := wrap64 (a - b)

/-- `DefaultComparator` leg for `T = float64`:
`if aTyped < bTyped { return -1 } else if aTyped > bTyped { return 1 }; return 0`. -/
def DefaultComparatorFloat64 (a b : ℚ) : Int :=
  if a < b then -1 else if a > b then 1 else 0

/-- `strings.Compare`, byte-wise lexicographic over UTF-8, embedded as
code-point lexicographic comparison of the character lists. -/
def stringsCompareAux : List Char → List Char → Int
  | [], [] => 0
  | [], _ :: _ => -1
  | _ :: _, [] => 1
  | a :: as, b :: bs =>
    if a < b then -1 else if b < a then 1 else stringsCompareAux as bs

/-- `DefaultComparator` leg for `T = string`: `strings.Compare(aTyped, bTyped)`. -/
def DefaultComparatorString (a b : String) : Int :=
  stringsCompareAux a.data b.data

/-- `DefaultComparator` `default:` leg: `return 0` for every other type. -/
def DefaultComparatorOther {T : Type} (_a _b : T) : Int := 0

/-! ## priorityqueue: internalHeap and the container/heap algorithms

`internalHeap[E]` holds `items []E` and a `comparator`.  `Len`, `Less`,
`Swap`, `Push`, `Pop` implement `heap.Interface`; the `container/heap`
package supplies `up`, `down`, `heap.Push`, `heap.Pop`, `heap.Remove`.
The comparator is a fixed field, so it is passed as a parameter `cmp`.

All heap-internal indices at the call sites below are in range except in
one place: `heap.Pop` on an empty heap computes `n := h.Len() - 1 = -1`
and calls `h.Swap(0, -1)`, which panics (Go index out of range).  That
entry point (`heapPop`) is therefore `Option`-valued with an explicit
length guard; everywhere else indices are natural numbers. -/

variable {E : Type} [Inhabited E]

/-- `internalHeap.Swap`: `ph.items[i], ph.items[j] = ph.items[j], ph.items[i]`. -/
def hSwap (l : List E) (i j : Nat) : List E :=
  (l.set i (l.getD j default)).set j (l.getD i default)

/-- `container/heap`'s `up(h, j)`: repeatedly compare position `j` with its
parent `i = (j-1)/2` and swap while `h.Less(j, i)`; stop when `i == j`
(at the root: Go's truncated `(0-1)/2 = 0` agrees with `Nat` subtraction). -/
def hUp (cmp : E → E → Int) (l : List E) (j : Nat) : List E :=
  if (j - 1) / 2 = j then l
  else if cmp (l.getD j default) (l.getD ((j - 1) / 2) default) < 0 then
    hUp cmp (hSwap l ((j - 1) / 2) j) ((j - 1) / 2)
  else l
termination_by j
decreasing_by omega

/-- The smaller-child selection inside `container/heap`'s `down`:
`j = j1 = 2*i+1`, replaced by `j2 = j1+1` when `j2 < n && h.Less(j2, j1)`. -/
def hDownJ (cmp : E → E → Int) (l : List E) (i n : Nat) : Nat :=
  if 2 * i + 2 < n ∧ cmp (l.getD (2 * i + 2) default) (l.getD (2 * i + 1) default) < 0 then
    2 * i + 2
  else 2 * i + 1

/-- `container/heap`'s `down(h, i0, n)` loop, returning the final index
(Go's boolean result is `finalIndex > i0`, recovered at the call sites).
The Go guard `j1 < 0` (int overflow of `2*i+1`) is unreachable with
unbounded indices and is subsumed by `j1 ≥ n`. -/
def hDown (cmp : E → E → Int) (l : List E) (i n : Nat) : List E × Nat :=
  if n ≤ 2 * i + 1 then (l, i)
  else if cmp (l.getD (hDownJ cmp l i n) default) (l.getD i default) < 0 then
    hDown cmp (hSwap l i (hDownJ cmp l i n)) (hDownJ cmp l i n) n
  else (l, i)
termination_by n - i
decreasing_by
  unfold hDownJ
  split
  case isTrue h => omega
  case isFalse h => omega

/-! ## priorityqueue: PriorityQueue methods -/

/-- `New[E](opts...)`: fresh queues start with empty `items` (the
`WithCapacity` option only pre-allocates; `heap.Init` on an empty slice
is a no-op), so the initial state is `[]`. -/
def NewItems : List E := []

/-- `Offer(item)`: `heap.Push(pq.heap, item)` appends (`internalHeap.Push`;
its type assertion `x.(E)` always succeeds since `heap.Push` is handed an
`E`) and then runs `up` on the last index.  The `defer/recover` that would
turn a panic into `success = false` is unreachable: the pushed code path
cannot panic, so `Offer` returns `true`. -/
def Offer (cmp : E → E → Int) (l : List E) (item : E) : Bool × List E :=
  (true, hUp cmp (l ++ [item]) l.length)

/-- `Add(item)`: calls `Offer` and panics ("Queue is full") only if it
returned `false`, which it never does; returns `true`. -/
def Add (cmp : E → E → Int) (l : List E) (item : E) : Bool × List E :=
  Offer cmp l item

/-- `heap.Pop`: `n := h.Len() - 1; h.Swap(0, n); down(h, 0, n)`, then
`internalHeap.Pop` takes `old[n]` and shrinks to `old[0:n]`.
On an empty heap `n = -1` and `h.Swap(0, -1)` panics (index out of
range), hence `none`. -/
def heapPop (cmp : E → E → Int) (l : List E) : Option (E × List E) :=
  if l.length = 0 then none
  else
    some (((hDown cmp (hSwap l 0 (l.length - 1)) 0 (l.length - 1)).1.getD (l.length - 1) default),
      (hDown cmp (hSwap l 0 (l.length - 1)) 0 (l.length - 1)).1.take (l.length - 1))

/-- `Poll()`: `item := heap.Pop(pq.heap)`; the `if item == nil` branch that
would return the zero value is dead code (for a non-interface `E`,
`internalHeap.Pop` always returns a non-nil boxed `E`, and on an empty
queue `heap.Pop` panics before returning), so `Poll` is `heap.Pop`. -/
def Poll (cmp : E → E → Int) (l : List E) : Option (E × List E) :=
  heapPop cmp l

/-- `Peek()`: returns the zero value if `pq.heap.Len() == 0`, else
`pq.heap.items[0]`; the receiver is not mutated, so the state is returned
unchanged. -/
def Peek (l : List E) : E × List E :=
  if l.length = 0 then (default, l) else (l.getD 0 default, l)

/-- `heap.Remove(h, i)`: `n := h.Len() - 1; if n != i { h.Swap(i, n);
if !down(h, i, n) { up(h, i) } }; return h.Pop()` — `down`'s boolean is
`finalIndex > i`, and the final `h.Pop()` drops position `n`. -/
def heapRemoveAt (cmp : E → E → Int) (l : List E) (i : Nat) : List E :=
  if i = l.length - 1 then l.take (l.length - 1)
  else
    (if i < (hDown cmp (hSwap l i (l.length - 1)) i (l.length - 1)).2 then
      (hDown cmp (hSwap l i (l.length - 1)) i (l.length - 1)).1
    else
      hUp cmp (hDown cmp (hSwap l i (l.length - 1)) i (l.length - 1)).1 i).take (l.length - 1)

/-- `Contains(item)`: if the element type is natively comparable
(`reflect.TypeOf(item).Comparable()`, modelled by `nativeEq = some eq`
where `eq` is Go `==`), scan `pq.heap.items` with `==`; otherwise panic
("Type is not comparable and equals function is not provided") unless an
`equals` function was configured, in which case scan with it. -/
def Contains (nativeEq equalsFn : Option (E → E → Bool)) (l : List E) (item : E) :
    Option Bool :=
  match nativeEq with
  | some eq => some (l.any fun v => eq v item)
  | none =>
    match equalsFn with
    | none => none
    | some f => some (l.any fun v => f v item)

/-- `Remove(item)`: same matching rule as `Contains`, but the first index
`i` whose element matches is removed via `heap.Remove(pq.heap, i)` and
`true` is returned; `false` if no element matches. -/
def Remove (nativeEq equalsFn : Option (E → E → Bool)) (cmp : E → E → Int)
    (l : List E) (item : E) : Option (Bool × List E) :=
  match nativeEq with
  | some eq =>
    match l.findIdx? (fun v => eq v item) with
    | some i => some (true, heapRemoveAt cmp l i)
    | none => some (false, l)
  | none =>
    match equalsFn with
    | none => none
    | some f =>
      match l.findIdx? (fun v => f v item) with
      | some i => some (true, heapRemoveAt cmp l i)
      | none => some (false, l)

/-- `Size()`: `len(pq.heap.items)`. -/
def Size (l : List E) : Nat := l.length

/-- `ToArray()`: `append([]E(nil), pq.heap.items...)` — a freshly
allocated copy of the items in heap-internal order; the receiver is not
mutated.  Returned as (copy, receiver state after the call). -/
def ToArray (l : List E) : List E × List E :=
  ([] ++ l, l)

/-- `Clear()`: `pq.heap.items = []E{}` (then `heap.Init` on the empty
slice, a no-op). -/
def Clear : List E := []

/-! ## Specification-side definitions

`lea cmp a b` is the relation the `container/heap` algorithms actually
maintain between a parent value `a` and a child value `b`: the child is
not `Less` than the parent, `¬ (cmp b a < 0)`. -/

def lea (cmp : E → E → Int) (a b : E) : Prop := ¬ cmp b a < 0

/-- The min-heap invariant on the first `n` positions of the backing
list: every non-root position `c < n` is `lea`-below its parent. -/
def HeapOn (cmp : E → E → Int) (l : List E) (n : Nat) : Prop :=
  ∀ c : Nat, 0 < c → c < n → lea cmp (l.getD ((c - 1) / 2) default) (l.getD c default)

/-- A valid strict weak ordering presented as a three-way comparator:
the strict relation `cmp a b < 0` is sign-antisymmetric and negatively
transitive (the contract assumed of a caller-supplied comparator). -/
def ValidCmp (cmp : E → E → Int) : Prop :=
  (∀ a b, cmp a b < 0 → 0 < cmp b a) ∧
  (∀ a b, 0 < cmp a b → cmp b a < 0) ∧
  (∀ a b c, cmp a c < 0 → cmp a b < 0 ∨ cmp b c < 0)

/-- Sign of a rational, as the `Int` three-way comparison result. -/
def qsign (x : ℚ) : Int := if x < 0 then -1 else if 0 < x then 1 else 0

/-- Mathematical subtraction on unbounded integers: the behaviour of the
`int` leg of `DefaultComparator` whenever the difference does not
overflow.  A valid strict weak ordering, used to instantiate theorems at
concrete inputs. -/
def subCmp (a b : Int) : Int := a - b

/-- The queue state after inserting 3, 2, 1 into a fresh queue. -/
def q321 : List Int :=
  (Offer subCmp (Offer subCmp (Offer subCmp NewItems 3).2 2).2 1).2

/-- Insert a list of elements one by one via `Offer` into a fresh queue. -/
def insertAll (cmp : E → E → Int) (xs : List E) : List E :=
  xs.foldl (fun l x => (Offer cmp l x).2) NewItems

/-- Repeated `Poll` until empty, fuelled (each successful `heap.Pop`
removes exactly one element, so `l.length` units of fuel drain `l`). -/
def drainFuel (cmp : E → E → Int) : Nat → List E → List E
  | 0, _ => []
  | fuel + 1, l =>
    match heapPop cmp l with
    | none => []
    | some (r, l') => r :: drainFuel cmp fuel l'

/-- The sequence of elements returned by calling `Poll()` repeatedly
until the queue is empty. -/
def drain (cmp : E → E → Int) (l : List E) : List E :=
  drainFuel cmp l.length l

/-- One public mutating operation of the queue. -/
inductive QOp (E : Type) where
  | add (x : E)
  | offer (x : E)
  | poll
  | remove (x : E)

/-- Effect of one operation on the items, together with how many
successful insertions and successful removals (removes returning `true`,
polls on a non-empty queue) it performs; `none` when the call panics. -/
def applyOp (nativeEq equalsFn : Option (E → E → Bool)) (cmp : E → E → Int)
    (l : List E) : QOp E → Option (List E × Nat × Nat)
  | .add x => some ((Add cmp l x).2, 1, 0)
  | .offer x => some ((Offer cmp l x).2, 1, 0)
  | .poll =>
    match heapPop cmp l with
    | none => none
    | some (_, l') => some (l', 0, 1)
  | .remove x =>
    match Remove nativeEq equalsFn cmp l x with
    | none => none
    | some (b, l') => some (l', 0, if b then 1 else 0)

/-- Run a sequence of operations, accumulating the counts of successful
insertions and removals. -/
def runOps (nativeEq equalsFn : Option (E → E → Bool)) (cmp : E → E → Int) :
    List (QOp E) → List E → Option (List E × Nat × Nat)
  | [], l => some (l, 0, 0)
  | op :: rest, l =>
    match applyOp nativeEq equalsFn cmp l op with
    | none => none
    | some (l1, a, r) =>
      match runOps nativeEq equalsFn cmp rest l1 with
      | none => none
      | some (l2, a2, r2) => some (l2, a + a2, r + r2)

/-- Item lists reachable from a freshly constructed queue by any
sequence of `Add`/`Offer`/`Poll`/`Remove` calls that do not panic
(`Add` and `Offer` perform the same insertion). -/
inductive Reachable (cmp : E → E → Int) : List E → Prop where
  | nil : Reachable cmp NewItems
  | offer {l : List E} (x : E) : Reachable cmp l → Reachable cmp (Offer cmp l x).2
  | poll {l : List E} {r : E} {l' : List E} :
      Reachable cmp l → heapPop cmp l = some (r, l') → Reachable cmp l'
  | remove {l : List E} (nativeEq equalsFn : Option (E → E → Bool)) (x : E)
      {b : Bool} {l' : List E} :
      Reachable cmp l → Remove nativeEq equalsFn cmp l x = some (b, l') →
      Reachable cmp l'

/-! ## Comparator lemmas -/

theorem lea_refl {cmp : E → E → Int} (V : ValidCmp cmp) (a : E) : lea cmp a a := by
  intro h
  have := V.1 a a h
  omega

theorem lea_of_lt {cmp : E → E → Int} (V : ValidCmp cmp) {a b : E}
    (h : cmp a b < 0) : lea cmp a b := by
  have := V.1 a b h
  intro hc
  omega

theorem lea_trans {cmp : E → E → Int} (V : ValidCmp cmp) {a b c : E}
    (hab : lea cmp a b) (hbc : lea cmp b c) : lea cmp a c := by
  intro h
  rcases V.2.2 c b a h with h' | h'
  · exact hbc h'
  · exact hab h'

theorem cmp_le_of_lea {cmp : E → E → Int} (V : ValidCmp cmp) {a b : E}
    (h : lea cmp a b) : cmp a b ≤ 0 := by
  by_contra hc
  exact h (V.2.1 a b (by omega))

/-! ## List index and multiset lemmas -/

theorem getD_set_self {l : List E} {i : Nat} {a : E} (h : i < l.length) :
    (l.set i a).getD i default = a := by
  simp [List.getD_eq_getElem?_getD, List.getElem?_set_self h]

theorem getD_set_ne {l : List E} {i j : Nat} {a : E} (h : i ≠ j) :
    (l.set i a).getD j default = l.getD j default := by
  simp [List.getD_eq_getElem?_getD, List.getElem?_set_ne h]

theorem length_hSwap (l : List E) (i j : Nat) : (hSwap l i j).length = l.length := by
  simp [hSwap]

theorem hSwap_getD_fst {l : List E} {i j : Nat} (h : i < l.length) (hij : i ≠ j) :
    (hSwap l i j).getD i default = l.getD j default := by
  rw [hSwap, getD_set_ne (fun hji => hij hji.symm), getD_set_self h]

theorem hSwap_getD_snd {l : List E} {i j : Nat} (h : j < l.length) :
    (hSwap l i j).getD j default = l.getD i default := by
  rw [hSwap, getD_set_self (by simpa using h)]

theorem hSwap_getD_other {l : List E} {i j q : Nat} (hqi : q ≠ i) (hqj : q ≠ j) :
    (hSwap l i j).getD q default = l.getD q default := by
  rw [hSwap, getD_set_ne (fun h => hqj h.symm), getD_set_ne (fun h => hqi h.symm)]

theorem multiset_set {l : List E} {i : Nat} (x : E) (h : i < l.length) :
    ((l.set i x : List E) : Multiset E) + {l.getD i default} =
      (l : Multiset E) + {x} := by
  induction l generalizing i with
  | nil => simp at h
  | cons a as ih =>
    cases i with
    | zero =>
      simp only [List.set, List.getD_cons_zero, ← Multiset.cons_coe]
      rw [add_comm, Multiset.singleton_add, add_comm (a ::ₘ (as : Multiset E)),
        Multiset.singleton_add, Multiset.cons_swap]
    | succ m =>
      simp only [List.set, List.getD_cons_succ, ← Multiset.cons_coe]
      have h' : m < as.length := by simpa using h
      rw [Multiset.cons_add, Multiset.cons_add, ih h']

theorem multiset_hSwap {l : List E} {i j : Nat} (hi : i < l.length) (hj : j < l.length) :
    ((hSwap l i j : List E) : Multiset E) = (l : Multiset E) := by
  have h1 : ((l.set i (l.getD j default) : List E) : Multiset E) + {l.getD i default} =
      (l : Multiset E) + {l.getD j default} := multiset_set _ hi
  have hj' : j < (l.set i (l.getD j default)).length := by simpa using hj
  have h2 := multiset_set (l := l.set i (l.getD j default)) (i := j)
    (l.getD i default) hj'
  have hval : (l.set i (l.getD j default)).getD j default = l.getD j default := by
    rcases eq_or_ne i j with rfl | hne
    · exact getD_set_self hi
    · exact getD_set_ne hne
  rw [hval] at h2
  rw [hSwap]
  have : ((l.set i (l.getD j default)).set j (l.getD i default) : Multiset E) +
      {l.getD j default} = (l : Multiset E) + {l.getD j default} := by
    rw [h2, h1]
  exact add_right_cancel this

theorem getD_take {l : List E} {n m : Nat} (h : m < n) :
    (l.take n).getD m default = l.getD m default := by
  simp [List.getD_eq_getElem?_getD, List.getElem?_take, h]

theorem take_concat_getD {l : List E} {n : Nat} (h : l.length = n + 1) :
    l.take n ++ [l.getD n default] = l := by
  induction l generalizing n with
  | nil => simp at h
  | cons a as ih =>
    cases n with
    | zero =>
      have : as = [] := by
        cases as with
        | nil => rfl
        | cons b bs => simp at h
      simp [this]
    | succ m =>
      have h' : as.length = m + 1 := by simpa using h
      simp [List.take_succ_cons, List.getD_cons_succ, ← List.getD_eq_getElem?_getD, ih h']

theorem multiset_concat_getD {l : List E} {n : Nat} (h : l.length = n + 1) :
    (l : Multiset E) = l.getD n default ::ₘ (l.take n : Multiset E) := by
  conv_lhs => rw [← take_concat_getD h]
  rw [← Multiset.coe_add, Multiset.coe_singleton, add_comm, Multiset.singleton_add]

/-! ## Lemmas about the sift-up loop -/

theorem hUp_length (cmp : E → E → Int) (l : List E) (j : Nat) :
    (hUp cmp l j).length = l.length := by
  induction j using Nat.strong_induction_on generalizing l with
  | _ j IH =>
    rw [hUp]
    split
    · rfl
    split
    · rw [IH _ (by omega), length_hSwap]
    · rfl

theorem hUp_getD_untouched (cmp : E → E → Int) {l : List E} {j q : Nat} (h : j < q) :
    (hUp cmp l j).getD q default = l.getD q default := by
  induction j using Nat.strong_induction_on generalizing l with
  | _ j IH =>
    rw [hUp]
    split
    · rfl
    split
    · rw [IH _ (by omega) (by omega), hSwap_getD_other (by omega) (by omega)]
    · rfl

theorem hUp_multiset (cmp : E → E → Int) {l : List E} {j : Nat} (h : j < l.length) :
    ((hUp cmp l j : List E) : Multiset E) = (l : Multiset E) := by
  induction j using Nat.strong_induction_on generalizing l with
  | _ j IH =>
    rw [hUp]
    split
    · rfl
    split
    · rw [IH _ (by omega) (by simp [length_hSwap]; omega),
        multiset_hSwap (by omega) h]
    · rfl

theorem hUp_heap {cmp : E → E → Int} (V : ValidCmp cmp) {l : List E} {j m : Nat}
    (hj : j < m) (hm : m ≤ l.length)
    (ha : ∀ c, 0 < c → c < m → c ≠ j →
      lea cmp (l.getD ((c - 1) / 2) default) (l.getD c default))
    (hb : 0 < j → ∀ c, c < m → (c - 1) / 2 = j →
      lea cmp (l.getD ((j - 1) / 2) default) (l.getD c default)) :
    HeapOn cmp (hUp cmp l j) m := by
  induction j using Nat.strong_induction_on generalizing l with
  | _ j IH =>
    rw [hUp]
    split
    case isTrue h1 =>
      -- at the root: j = 0, every non-root pair is covered by ha
      have hj0 : j = 0 := by omega
      intro c hc0 hcm
      exact ha c hc0 hcm (by omega)
    case isFalse h1 =>
      have hj1 : 0 < j := by omega
      have hij : (j - 1) / 2 < j := by omega
      have hjlen : j < l.length := lt_of_lt_of_le hj hm
      have hilen : (j - 1) / 2 < l.length := lt_trans hij hjlen
      split
      case isTrue h2 =>
        -- swapped with the parent; recurse at the parent index
        apply IH _ hij (lt_trans hij hj) (by rw [length_hSwap]; exact hm)
        · -- all non-root pairs except the new exception (j-1)/2 hold after the swap
          intro c hc0 hcm hci
          have hcben : c < l.length := lt_of_lt_of_le hcm hm
          rcases eq_or_ne c j with rfl | hcj
          · -- the swapped pair itself, parent (c-1)/2
            rw [hSwap_getD_fst hilen (by omega), hSwap_getD_snd hjlen]
            exact lea_of_lt V h2
          rcases eq_or_ne ((c - 1) / 2) j with hpc | hpc
          · -- c was a child of j; its new parent value is the old l[j]
            have hcj' : j < c := by omega
            rw [hpc, hSwap_getD_snd hjlen,
              hSwap_getD_other (by omega) (by omega)]
            exact hb hj1 c hcm hpc
          rcases eq_or_ne ((c - 1) / 2) ((j - 1) / 2) with hpi | hpi
          · -- c is the sibling of j below (j-1)/2: new parent value is old l[j]
            rw [hpi, hSwap_getD_fst hilen (by omega),
              hSwap_getD_other (by omega) hcj]
            have hx := ha c hc0 hcm hcj
            rw [hpi] at hx
            exact lea_trans V (lea_of_lt V h2) hx
          · -- untouched pair
            rw [hSwap_getD_other hpi hpc, hSwap_getD_other hci hcj]
            exact ha c hc0 hcm hcj
        · -- grandparent condition at the new exception (j-1)/2
          intro hi1 c hcm hpc
          have hgp : ((j - 1) / 2 - 1) / 2 < (j - 1) / 2 := by omega
          have hc0 : (j - 1) / 2 < c := by omega
          rw [hSwap_getD_other (by omega) (by omega)]
          rcases eq_or_ne c j with hcj | hcj
          · rw [hcj, hSwap_getD_snd hjlen]
            exact ha ((j - 1) / 2) hi1 (lt_trans hij hj) (by omega)
          · rw [hSwap_getD_other (by omega) hcj]
            have hx := ha c (by omega) hcm hcj
            rw [hpc] at hx
            exact lea_trans V (ha ((j - 1) / 2) hi1 (lt_trans hij hj) (by omega)) hx
      case isFalse h2 =>
        -- loop exit: the pair (parent, j) holds as well
        intro c hc0 hcm
        rcases eq_or_ne c j with rfl | hcj
        · exact h2
        · exact ha c hc0 hcm hcj

/-! ## Lemmas about the sift-down loop -/

theorem hDownJ_cases (cmp : E → E → Int) (l : List E) (i n : Nat) :
    hDownJ cmp l i n = 2 * i + 1 ∨ hDownJ cmp l i n = 2 * i + 2 := by
  unfold hDownJ
  split
  · exact Or.inr rfl
  · exact Or.inl rfl

theorem hDownJ_bounds (cmp : E → E → Int) (l : List E) {i n : Nat} (h : 2 * i + 1 < n) :
    i < hDownJ cmp l i n ∧ hDownJ cmp l i n < n := by
  unfold hDownJ
  split
  case isTrue hc => omega
  case isFalse hc => omega

/-- The selected child is `lea`-below the other child (when that other
child is inside the boundary). -/
theorem hDownJ_sibling {cmp : E → E → Int} (V : ValidCmp cmp) (l : List E) {i n : Nat}
    (_h : 2 * i + 1 < n) {s : Nat} (hs : s < n) (hs2 : s = 2 * i + 1 ∨ s = 2 * i + 2)
    (hne : s ≠ hDownJ cmp l i n) :
    lea cmp (l.getD (hDownJ cmp l i n) default) (l.getD s default) := by
  by_cases hc : 2 * i + 2 < n ∧
      cmp (l.getD (2 * i + 2) default) (l.getD (2 * i + 1) default) < 0
  · have hJ : hDownJ cmp l i n = 2 * i + 2 := by unfold hDownJ; rw [if_pos hc]
    rw [hJ] at hne ⊢
    have hs1 : s = 2 * i + 1 := by omega
    subst hs1
    exact lea_of_lt V hc.2
  · have hJ : hDownJ cmp l i n = 2 * i + 1 := by unfold hDownJ; rw [if_neg hc]
    rw [hJ] at hne ⊢
    have hs1 : s = 2 * i + 2 := by omega
    subst hs1
    intro hlt
    exact hc ⟨by omega, hlt⟩

theorem hDown_length (cmp : E → E → Int) (l : List E) (i n : Nat) :
    (hDown cmp l i n).1.length = l.length := by
  suffices H : ∀ (k : Nat) (l : List E) (i : Nat), n - i = k →
      (hDown cmp l i n).1.length = l.length from H (n - i) l i rfl
  intro k
  induction k using Nat.strong_induction_on with
  | _ k IH =>
    intro l i hk
    rw [hDown]
    by_cases h1 : n ≤ 2 * i + 1
    · rw [if_pos h1]
    · rw [if_neg h1]
      have hb := hDownJ_bounds cmp l (i := i) (n := n) (by omega)
      split
      · rw [IH (n - hDownJ cmp l i n) (by omega) _ _ rfl, length_hSwap]
      · rfl

theorem hDown_le_snd (cmp : E → E → Int) (l : List E) (i n : Nat) :
    i ≤ (hDown cmp l i n).2 := by
  suffices H : ∀ (k : Nat) (l : List E) (i : Nat), n - i = k →
      i ≤ (hDown cmp l i n).2 from H (n - i) l i rfl
  intro k
  induction k using Nat.strong_induction_on with
  | _ k IH =>
    intro l i hk
    rw [hDown]
    by_cases h1 : n ≤ 2 * i + 1
    · rw [if_pos h1]
    · rw [if_neg h1]
      have hb := hDownJ_bounds cmp l (i := i) (n := n) (by omega)
      split
      · exact le_trans (by omega) (IH (n - hDownJ cmp l i n) (by omega) _ _ rfl)
      · exact le_refl i

theorem hDown_getD_untouched (cmp : E → E → Int) {l : List E} {i n : Nat} (q : Nat)
    (hq : q < i ∨ n ≤ q) :
    (hDown cmp l i n).1.getD q default = l.getD q default := by
  suffices H : ∀ (k : Nat) (l : List E) (i : Nat), n - i = k → (q < i ∨ n ≤ q) →
      (hDown cmp l i n).1.getD q default = l.getD q default from H (n - i) l i rfl hq
  intro k
  induction k using Nat.strong_induction_on with
  | _ k IH =>
    intro l i hk hq
    rw [hDown]
    by_cases h1 : n ≤ 2 * i + 1
    · rw [if_pos h1]
    · rw [if_neg h1]
      have hb := hDownJ_bounds cmp l (i := i) (n := n) (by omega)
      split
      · rw [IH (n - hDownJ cmp l i n) (by omega) _ _ rfl (by omega),
          hSwap_getD_other (by omega) (by omega)]
      · rfl

theorem hDown_multiset (cmp : E → E → Int) {l : List E} {i n : Nat} (hn : n ≤ l.length) :
    ((hDown cmp l i n).1 : Multiset E) = (l : Multiset E) := by
  suffices H : ∀ (k : Nat) (l : List E) (i : Nat), n - i = k → n ≤ l.length →
      ((hDown cmp l i n).1 : Multiset E) = (l : Multiset E) from H (n - i) l i rfl hn
  intro k
  induction k using Nat.strong_induction_on with
  | _ k IH =>
    intro l i hk hn
    rw [hDown]
    by_cases h1 : n ≤ 2 * i + 1
    · rw [if_pos h1]
    · rw [if_neg h1]
      have hb := hDownJ_bounds cmp l (i := i) (n := n) (by omega)
      split
      · rw [IH (n - hDownJ cmp l i n) (by omega) _ _ rfl (by rw [length_hSwap]; exact hn),
          multiset_hSwap (by omega) (by omega)]
      · rfl

theorem hDown_eq_of_snd_eq (cmp : E → E → Int) {l : List E} {i n : Nat}
    (h : (hDown cmp l i n).2 = i) : (hDown cmp l i n).1 = l := by
  rw [hDown] at h ⊢
  by_cases h1 : n ≤ 2 * i + 1
  · rw [if_pos h1]
  · rw [if_neg h1] at h ⊢
    have hb := hDownJ_bounds cmp l (i := i) (n := n) (by omega)
    by_cases h2 : cmp (l.getD (hDownJ cmp l i n) default) (l.getD i default) < 0
    · rw [if_pos h2] at h
      have := hDown_le_snd cmp (hSwap l i (hDownJ cmp l i n)) (hDownJ cmp l i n) n
      omega
    · rw [if_neg h2]

/-- Main specification of `down(h, i, n)` on a list that is a heap on
`[0, n)` except around position `i`: afterwards every non-root pair not
at `i` satisfies the heap relation, and if the element moved
(`i < finalIndex`) the pair at `i` holds too.  (If it did not move, the
list is unchanged — `hDown_eq_of_snd_eq`.) -/
theorem hDown_spec {cmp : E → E → Int} (V : ValidCmp cmp) {l : List E} {i n : Nat}
    (hn : n ≤ l.length)
    (ha : ∀ c, 0 < c → c < n → c ≠ i → (c - 1) / 2 ≠ i →
      lea cmp (l.getD ((c - 1) / 2) default) (l.getD c default))
    (hb : 0 < i → ∀ c, c < n → (c - 1) / 2 = i →
      lea cmp (l.getD ((i - 1) / 2) default) (l.getD c default)) :
    (∀ c, 0 < c → c < n → c ≠ i →
      lea cmp ((hDown cmp l i n).1.getD ((c - 1) / 2) default)
        ((hDown cmp l i n).1.getD c default)) ∧
    (0 < i → i < (hDown cmp l i n).2 →
      lea cmp ((hDown cmp l i n).1.getD ((i - 1) / 2) default)
        ((hDown cmp l i n).1.getD i default)) := by
  suffices H : ∀ (k : Nat) (l : List E) (i : Nat), n - i = k → n ≤ l.length →
      (∀ c, 0 < c → c < n → c ≠ i → (c - 1) / 2 ≠ i →
        lea cmp (l.getD ((c - 1) / 2) default) (l.getD c default)) →
      (0 < i → ∀ c, c < n → (c - 1) / 2 = i →
        lea cmp (l.getD ((i - 1) / 2) default) (l.getD c default)) →
      (∀ c, 0 < c → c < n → c ≠ i →
        lea cmp ((hDown cmp l i n).1.getD ((c - 1) / 2) default)
          ((hDown cmp l i n).1.getD c default)) ∧
      (0 < i → i < (hDown cmp l i n).2 →
        lea cmp ((hDown cmp l i n).1.getD ((i - 1) / 2) default)
          ((hDown cmp l i n).1.getD i default)) from
    H (n - i) l i rfl hn ha hb
  intro k
  induction k using Nat.strong_induction_on with
  | _ k IH =>
    intro l i hk hn ha hb
    rw [hDown]
    by_cases h1 : n ≤ 2 * i + 1
    · -- no child inside the boundary: nothing to do
      rw [if_pos h1]
      refine ⟨fun c hc0 hcn hci => ha c hc0 hcn hci (by omega), fun _ h => by omega⟩
    rw [if_neg h1]
    have hJb := hDownJ_bounds cmp l (i := i) (n := n) (by omega)
    have hJc := hDownJ_cases cmp l i n
    have hJpar : (hDownJ cmp l i n - 1) / 2 = i := by omega
    by_cases h2 : cmp (l.getD (hDownJ cmp l i n) default) (l.getD i default) < 0
    · rw [if_pos h2]
      -- swap with the smaller child and recurse from there
      have hn' : n ≤ (hSwap l i (hDownJ cmp l i n)).length := by
        rw [length_hSwap]; exact hn
      have hilen : i < l.length := by omega
      have hJlen : hDownJ cmp l i n < l.length := by omega
      -- the heap-except-at-J invariant after the swap
      have ha' : ∀ c, 0 < c → c < n → c ≠ hDownJ cmp l i n →
          (c - 1) / 2 ≠ hDownJ cmp l i n →
          lea cmp ((hSwap l i (hDownJ cmp l i n)).getD ((c - 1) / 2) default)
            ((hSwap l i (hDownJ cmp l i n)).getD c default) := by
        intro c hc0 hcn hcJ hpcJ
        rcases eq_or_ne c i with hci | hci
        · -- pair (parent of i, i): the new value at i is the old child
          have hi0 : 0 < i := by omega
          rw [hci, hSwap_getD_fst hilen (by omega), hSwap_getD_other (by omega) (by omega)]
          exact hb hi0 (hDownJ cmp l i n) (by omega) hJpar
        rcases eq_or_ne ((c - 1) / 2) i with hpc | hpc
        · -- c is the sibling of the chosen child
          rw [hpc, hSwap_getD_fst hilen (by omega), hSwap_getD_other hci hcJ]
          exact hDownJ_sibling V l (by omega) hcn (by omega) hcJ
        · -- untouched pair
          rw [hSwap_getD_other hpc hpcJ, hSwap_getD_other hci hcJ]
          exact ha c hc0 hcn hci hpc
      have hb' : 0 < hDownJ cmp l i n → ∀ c, c < n →
          (c - 1) / 2 = hDownJ cmp l i n →
          lea cmp ((hSwap l i (hDownJ cmp l i n)).getD ((hDownJ cmp l i n - 1) / 2) default)
            ((hSwap l i (hDownJ cmp l i n)).getD c default) := by
        intro _ c hcn hpc
        rw [hJpar, hSwap_getD_fst hilen (by omega), hSwap_getD_other (by omega) (by omega)]
        have hx := ha c (by omega) hcn (by omega) (by omega)
        rw [hpc] at hx
        exact hx
      obtain ⟨A, B⟩ := IH (n - hDownJ cmp l i n) (by omega) _ _ rfl hn' ha' hb'
      constructor
      · intro c hc0 hcn hci
        rcases eq_or_ne c (hDownJ cmp l i n) with rfl | hcJ
        · -- the pair at the chosen child in the final list
          rcases Nat.lt_or_ge (hDownJ cmp l i n)
              (hDown cmp (hSwap l i (hDownJ cmp l i n)) (hDownJ cmp l i n) n).2 with hf | hf
          · exact B (by omega) hf
          · have hfe :
                (hDown cmp (hSwap l i (hDownJ cmp l i n)) (hDownJ cmp l i n) n).2 =
                  hDownJ cmp l i n := by
              have := hDown_le_snd cmp (hSwap l i (hDownJ cmp l i n)) (hDownJ cmp l i n) n
              omega
            rw [hDown_eq_of_snd_eq cmp hfe, hJpar,
              hSwap_getD_fst hilen (by omega), hSwap_getD_snd hJlen]
            exact lea_of_lt V h2
        · exact A c hc0 hcn hcJ
      · intro hi0 _
        have hpari : (i - 1) / 2 < i := by omega
        rw [hDown_getD_untouched cmp i (by omega),
          hDown_getD_untouched cmp ((i - 1) / 2) (by omega),
          hSwap_getD_fst hilen (by omega), hSwap_getD_other (by omega) (by omega)]
        exact hb hi0 (hDownJ cmp l i n) (by omega) hJpar
    · rw [if_neg h2]
      -- loop exit: position i is lea-below both children
      constructor
      · intro c hc0 hcn hci
        rcases eq_or_ne ((c - 1) / 2) i with hpc | hpc
        · rw [hpc]
          rcases eq_or_ne c (hDownJ cmp l i n) with rfl | hcJ
          · exact h2
          · exact lea_trans V h2 (hDownJ_sibling V l (by omega) hcn (by omega) hcJ)
        · exact ha c hc0 hcn hci hpc
      · intro _ h
        omega

/-! ## Operation-level lemmas -/

/-- In a heap the root is `lea`-below every position (by induction along
parent chains, using transitivity). -/
theorem heap_root_min {cmp : E → E → Int} (V : ValidCmp cmp) {l : List E} {n : Nat}
    (h : HeapOn cmp l n) :
    ∀ c, c < n → lea cmp (l.getD 0 default) (l.getD c default) := by
  intro c
  induction c using Nat.strong_induction_on with
  | _ c IH =>
    intro hcn
    rcases Nat.eq_zero_or_pos c with rfl | hc0
    · exact lea_refl V _
    · exact lea_trans V (IH ((c - 1) / 2) (by omega) (by omega)) (h c hc0 hcn)

theorem Offer_length (cmp : E → E → Int) (l : List E) (x : E) :
    (Offer cmp l x).2.length = l.length + 1 := by
  simp [Offer, hUp_length]

theorem Offer_multiset (cmp : E → E → Int) (l : List E) (x : E) :
    ((Offer cmp l x).2 : Multiset E) = x ::ₘ (l : Multiset E) := by
  have h : l.length < (l ++ [x]).length := by simp
  rw [Offer, hUp_multiset cmp h, ← Multiset.coe_add, Multiset.coe_singleton,
    add_comm, Multiset.singleton_add]

theorem Offer_heap {cmp : E → E → Int} (V : ValidCmp cmp) {l : List E}
    (hh : HeapOn cmp l l.length) (x : E) :
    HeapOn cmp (Offer cmp l x).2 (l.length + 1) := by
  apply hUp_heap V (by simp) (by simp)
  · intro c hc0 hcm hcj
    have hc : c < l.length := by omega
    rw [List.getD_append _ _ _ _ (by omega), List.getD_append _ _ _ _ hc]
    exact hh c hc0 hc
  · intro _ c hcm hpc
    omega

theorem heapPop_none_iff (cmp : E → E → Int) (l : List E) :
    heapPop cmp l = none ↔ l.length = 0 := by
  unfold heapPop
  split
  case isTrue h => simp [h]
  case isFalse h => simp [h]

theorem heapPop_some {cmp : E → E → Int} {l : List E} {r : E} {l' : List E}
    (h : heapPop cmp l = some (r, l')) :
    0 < l.length ∧ l'.length + 1 = l.length ∧ (l : Multiset E) = r ::ₘ (l' : Multiset E) := by
  unfold heapPop at h
  split at h
  case isTrue h0 => exact absurd h (by simp)
  case isFalse h0 =>
    have h0' : 0 < l.length := by omega
    obtain ⟨hr, hl'⟩ := Prod.mk.injEq .. ▸ Option.some.inj h
    have hlen2 : (hDown cmp (hSwap l 0 (l.length - 1)) 0 (l.length - 1)).1.length =
        l.length := by
      rw [hDown_length, length_hSwap]
    refine ⟨h0', ?_, ?_⟩
    · rw [← hl']
      simp only [List.length_take, hlen2]
      omega
    · have hms : ((hDown cmp (hSwap l 0 (l.length - 1)) 0 (l.length - 1)).1 : Multiset E) =
          (l : Multiset E) := by
        rw [hDown_multiset cmp (by rw [length_hSwap]; omega),
          multiset_hSwap (by omega) (by omega)]
      have hconcat := multiset_concat_getD
        (l := (hDown cmp (hSwap l 0 (l.length - 1)) 0 (l.length - 1)).1)
        (n := l.length - 1) (by omega)
      rw [hms] at hconcat
      rw [hconcat, hr, hl']

/-- `heap.Pop` on a non-empty heap returns the root (the minimum) and
leaves a heap on the remaining elements. -/
theorem heapPop_spec {cmp : E → E → Int} (V : ValidCmp cmp) {l : List E}
    (hh : HeapOn cmp l l.length) (h0 : 0 < l.length) :
    ∃ l', heapPop cmp l = some (l.getD 0 default, l') ∧ HeapOn cmp l' l'.length := by
  have hlen1 : (hSwap l 0 (l.length - 1)).length = l.length := length_hSwap ..
  have hlen2 : (hDown cmp (hSwap l 0 (l.length - 1)) 0 (l.length - 1)).1.length =
      l.length := by rw [hDown_length, hlen1]
  have hspec := hDown_spec (l := hSwap l 0 (l.length - 1)) (i := 0) (n := l.length - 1) V
    (by omega)
    (by
      intro c hc0 hcn hci hpc
      rw [hSwap_getD_other hci (by omega), hSwap_getD_other hpc (by omega)]
      exact hh c hc0 (by omega))
    (by omega)
  refine ⟨(hDown cmp (hSwap l 0 (l.length - 1)) 0 (l.length - 1)).1.take (l.length - 1),
    ?_, ?_⟩
  · unfold heapPop
    rw [if_neg (by omega)]
    have hr : (hDown cmp (hSwap l 0 (l.length - 1)) 0 (l.length - 1)).1.getD
        (l.length - 1) default = l.getD 0 default := by
      rw [hDown_getD_untouched cmp _ (Or.inr (le_refl _)), hSwap_getD_snd (by omega)]
    rw [hr]
  · intro c hc0 hcn
    have hcn' : c < l.length - 1 := by
      simpa [hlen2] using hcn
    rw [getD_take hcn', getD_take (by omega)]
    exact hspec.1 c hc0 hcn' (by omega)

/-- `heap.Remove(h, i)` on a heap removes exactly the element at index
`i` and leaves a heap on the remaining elements. -/
theorem heapRemoveAt_spec {cmp : E → E → Int} (V : ValidCmp cmp) {l : List E} {i : Nat}
    (hh : HeapOn cmp l l.length) (hi : i < l.length) :
    (heapRemoveAt cmp l i).length + 1 = l.length ∧
    (l : Multiset E) = l.getD i default ::ₘ (heapRemoveAt cmp l i : Multiset E) ∧
    HeapOn cmp (heapRemoveAt cmp l i) (heapRemoveAt cmp l i).length := by
  unfold heapRemoveAt
  by_cases hin : i = l.length - 1
  · rw [if_pos hin]
    have hlt : (l.take (l.length - 1)).length = l.length - 1 := by
      simp [List.length_take]
    refine ⟨by omega, ?_, ?_⟩
    · rw [hin]
      exact multiset_concat_getD (by omega)
    · intro c hc0 hcn
      rw [hlt] at hcn
      rw [getD_take hcn, getD_take (by omega)]
      exact hh c hc0 (by omega)
  · rw [if_neg hin]
    have hiln : i < l.length - 1 := by omega
    have hlen1 : (hSwap l i (l.length - 1)).length = l.length := length_hSwap ..
    have hlen2 : (hDown cmp (hSwap l i (l.length - 1)) i (l.length - 1)).1.length =
        l.length := by rw [hDown_length, hlen1]
    -- the swapped list is a heap on [0, n) except around i
    have hspec := hDown_spec (l := hSwap l i (l.length - 1)) (i := i) (n := l.length - 1) V
      (by omega)
      (by
        intro c hc0 hcn hci hpc
        rw [hSwap_getD_other hci (by omega), hSwap_getD_other hpc (by omega)]
        exact hh c hc0 (by omega))
      (by
        intro hi0 c hcn hpc
        rw [hSwap_getD_other (by omega) (by omega), hSwap_getD_other (by omega) (by omega)]
        have hx := hh c (by omega) (by omega)
        rw [hpc] at hx
        exact lea_trans V (hh i hi0 (by omega)) hx)
    by_cases hmoved : i < (hDown cmp (hSwap l i (l.length - 1)) i (l.length - 1)).2
    · rw [if_pos hmoved]
      have hfin : ((hDown cmp (hSwap l i (l.length - 1)) i (l.length - 1)).1.take
          (l.length - 1)).length = l.length - 1 := by
        simp [List.length_take, hlen2]
      refine ⟨by omega, ?_, ?_⟩
      · have hms : ((hDown cmp (hSwap l i (l.length - 1)) i (l.length - 1)).1 : Multiset E) =
            (l : Multiset E) := by
          rw [hDown_multiset cmp (by omega), multiset_hSwap (by omega) (by omega)]
        have hval : (hDown cmp (hSwap l i (l.length - 1)) i (l.length - 1)).1.getD
            (l.length - 1) default = l.getD i default := by
          rw [hDown_getD_untouched cmp _ (Or.inr (le_refl _)), hSwap_getD_snd (by omega)]
        have hconcat := multiset_concat_getD
          (l := (hDown cmp (hSwap l i (l.length - 1)) i (l.length - 1)).1)
          (n := l.length - 1) (by omega)
        rw [hms, hval] at hconcat
        exact hconcat
      · intro c hc0 hcn
        rw [hfin] at hcn
        rw [getD_take hcn, getD_take (by omega)]
        rcases eq_or_ne c i with hci | hci
        · have hx := hspec.2 (by omega) hmoved
          rw [hci]
          exact hx
        · exact hspec.1 c hc0 hcn hci
    · rw [if_neg hmoved]
      have hle := hDown_le_snd cmp (hSwap l i (l.length - 1)) i (l.length - 1)
      have hfe : (hDown cmp (hSwap l i (l.length - 1)) i (l.length - 1)).2 = i := by omega
      have heq := hDown_eq_of_snd_eq cmp hfe
      have hup_len : (hUp cmp (hDown cmp (hSwap l i (l.length - 1)) i (l.length - 1)).1
          i).length = l.length := by rw [hUp_length, hlen2]
      have hfin : ((hUp cmp (hDown cmp (hSwap l i (l.length - 1)) i (l.length - 1)).1
          i).take (l.length - 1)).length = l.length - 1 := by
        simp [List.length_take, hup_len]
      -- heap on [0, n) after the sift-up
      have hheap : HeapOn cmp
          (hUp cmp (hDown cmp (hSwap l i (l.length - 1)) i (l.length - 1)).1 i)
          (l.length - 1) := by
        apply hUp_heap V hiln (by omega)
        · intro c hc0 hcn hci
          exact hspec.1 c hc0 hcn hci
        · intro hi0 c hcn hpc
          rw [heq, hSwap_getD_other (by omega) (by omega),
            hSwap_getD_other (by omega) (by omega)]
          have hx := hh c (by omega) (by omega)
          rw [hpc] at hx
          exact lea_trans V (hh i hi0 (by omega)) hx
      refine ⟨by omega, ?_, ?_⟩
      · have hms : ((hUp cmp (hDown cmp (hSwap l i (l.length - 1)) i
            (l.length - 1)).1 i : List E) : Multiset E) = (l : Multiset E) := by
          rw [hUp_multiset cmp (by omega), hDown_multiset cmp (by omega),
            multiset_hSwap (by omega) (by omega)]
        have hval : (hUp cmp (hDown cmp (hSwap l i (l.length - 1)) i
            (l.length - 1)).1 i).getD (l.length - 1) default = l.getD i default := by
          rw [hUp_getD_untouched cmp (by omega),
            hDown_getD_untouched cmp _ (Or.inr (le_refl _)), hSwap_getD_snd (by omega)]
        have hconcat := multiset_concat_getD
          (l := hUp cmp (hDown cmp (hSwap l i (l.length - 1)) i (l.length - 1)).1 i)
          (n := l.length - 1) (by omega)
        rw [hms, hval] at hconcat
        exact hconcat
      · intro c hc0 hcn
        rw [hfin] at hcn
        rw [getD_take hcn, getD_take (by omega)]
        exact hheap c hc0 hcn

theorem drainFuel_multiset (cmp : E → E → Int) :
    ∀ (fuel : Nat) (l : List E), l.length ≤ fuel →
      ((drainFuel cmp fuel l : List E) : Multiset E) = (l : Multiset E) := by
  intro fuel
  induction fuel with
  | zero =>
    intro l h
    have : l = [] := by
      cases l with
      | nil => rfl
      | cons a as => simp at h
    simp [this, drainFuel]
  | succ f IH =>
    intro l h
    rw [drainFuel]
    cases hp : heapPop cmp l with
    | none =>
      have : l.length = 0 := (heapPop_none_iff cmp l).mp hp
      cases l with
      | nil => rfl
      | cons a as => simp at this
    | some p =>
      obtain ⟨r, l'⟩ := p
      obtain ⟨h0, hlen, hms⟩ := heapPop_some hp
      rw [← Multiset.cons_coe, IH l' (by omega), hms]

theorem drainFuel_sorted {cmp : E → E → Int} (V : ValidCmp cmp) :
    ∀ (fuel : Nat) (l : List E), l.length ≤ fuel → HeapOn cmp l l.length →
      List.Chain' (fun a b => cmp a b ≤ 0) (drainFuel cmp fuel l) := by
  intro fuel
  induction fuel with
  | zero =>
    intro l _ _
    simp [drainFuel]
  | succ f IH =>
    intro l h hh
    rw [drainFuel]
    cases hp : heapPop cmp l with
    | none => simp
    | some p =>
      obtain ⟨r, l'⟩ := p
      obtain ⟨h0, hlen, hms⟩ := heapPop_some hp
      obtain ⟨l'', hp', hh'⟩ := heapPop_spec V hh h0
      rw [hp] at hp'
      have hpr := Option.some.inj hp'
      have hr : r = l.getD 0 default := congrArg Prod.fst hpr
      have hl2 : l' = l'' := congrArg Prod.snd hpr
      rw [← hl2] at hh'
      have hchain' := IH l' (by omega) hh'
      show List.Chain' (fun a b => cmp a b ≤ 0) (r :: drainFuel cmp f l')
      cases hd : drainFuel cmp f l' with
      | nil => simp
      | cons r' t =>
        rw [hd] at hchain'
        rw [List.chain'_cons]
        refine ⟨?_, hchain'⟩
        -- the next poll result r' is an element of l, and r is the root of l
        have hmem : r' ∈ l' := by
          have hmem0 : r' ∈ drainFuel cmp f l' := by rw [hd]; exact List.mem_cons_self ..
          rwa [← Multiset.mem_coe, drainFuel_multiset cmp f l' (by omega),
            Multiset.mem_coe] at hmem0
        have hmeml : r' ∈ l := by
          rw [← Multiset.mem_coe, hms]
          exact Multiset.mem_cons_of_mem (by rwa [Multiset.mem_coe])
        obtain ⟨c, hc, hcr⟩ := List.mem_iff_getElem.mp hmeml
        have hle := heap_root_min V hh c hc
        rw [List.getD_eq_getElem l default hc, hcr, ← hr] at hle
        exact cmp_le_of_lea V hle

/-! ## Evaluation helpers for concrete runs (the sift loops are defined by
well-founded recursion, so concrete instances are evaluated through their
equations) -/

theorem hUp_zero (cmp : E → E → Int) (l : List E) : hUp cmp l 0 = l := by
  rw [hUp, if_pos rfl]

theorem hUp_step (cmp : E → E → Int) (l : List E) {j : Nat} (h : (j - 1) / 2 ≠ j)
    (h2 : cmp (l.getD j default) (l.getD ((j - 1) / 2) default) < 0) :
    hUp cmp l j = hUp cmp (hSwap l ((j - 1) / 2) j) ((j - 1) / 2) := by
  rw [hUp, if_neg h, if_pos h2]

theorem hDown_stop (cmp : E → E → Int) (l : List E) {i n : Nat} (h : n ≤ 2 * i + 1) :
    hDown cmp l i n = (l, i) := by
  rw [hDown, if_pos h]

theorem hDown_noswap (cmp : E → E → Int) (l : List E) {i n : Nat} (h : ¬ n ≤ 2 * i + 1)
    (h2 : ¬ cmp (l.getD (hDownJ cmp l i n) default) (l.getD i default) < 0) :
    hDown cmp l i n = (l, i) := by
  rw [hDown, if_neg h, if_neg h2]

theorem hDown_swap (cmp : E → E → Int) (l : List E) {i n : Nat} (h : ¬ n ≤ 2 * i + 1)
    (h2 : cmp (l.getD (hDownJ cmp l i n) default) (l.getD i default) < 0) :
    hDown cmp l i n = hDown cmp (hSwap l i (hDownJ cmp l i n)) (hDownJ cmp l i n) n := by
  rw [hDown, if_neg h, if_pos h2]

/-! ## Remove: shape of the result -/

theorem Remove_some_true {nativeEq equalsFn : Option (E → E → Bool)} {cmp : E → E → Int}
    {l : List E} {x : E} {l' : List E}
    (h : Remove nativeEq equalsFn cmp l x = some (true, l')) :
    ∃ i, i < l.length ∧ l' = heapRemoveAt cmp l i := by
  unfold Remove at h
  rcases nativeEq with _ | eq
  · rcases equalsFn with _ | f
    · exact absurd h (by simp)
    · simp only at h
      cases hf : l.findIdx? (fun v => f v x) with
      | none => rw [hf] at h; simp at h
      | some i =>
        rw [hf] at h
        have hi := (List.findIdx?_eq_some_iff_findIdx_eq.mp hf).1
        have := Option.some.inj h
        exact ⟨i, hi, (congrArg Prod.snd this).symm⟩
  · simp only at h
    cases hf : l.findIdx? (fun v => eq v x) with
    | none => rw [hf] at h; simp at h
    | some i =>
      rw [hf] at h
      have hi := (List.findIdx?_eq_some_iff_findIdx_eq.mp hf).1
      have := Option.some.inj h
      exact ⟨i, hi, (congrArg Prod.snd this).symm⟩

theorem Remove_some_false {nativeEq equalsFn : Option (E → E → Bool)} {cmp : E → E → Int}
    {l : List E} {x : E} {l' : List E}
    (h : Remove nativeEq equalsFn cmp l x = some (false, l')) : l' = l := by
  unfold Remove at h
  rcases nativeEq with _ | eq
  · rcases equalsFn with _ | f
    · exact absurd h (by simp)
    · simp only at h
      cases hf : l.findIdx? (fun v => f v x) with
      | none => rw [hf] at h; exact (congrArg Prod.snd (Option.some.inj h)).symm
      | some i => rw [hf] at h; simp at h
  · simp only at h
    cases hf : l.findIdx? (fun v => eq v x) with
    | none => rw [hf] at h; exact (congrArg Prod.snd (Option.some.inj h)).symm
    | some i => rw [hf] at h; simp at h

/-! ## The heap invariant over all reachable states -/

theorem reachable_heapOn {cmp : E → E → Int} (V : ValidCmp cmp) {l : List E}
    (h : Reachable cmp l) : HeapOn cmp l l.length := by
  induction h with
  | nil =>
    intro c _ hcn
    simp [NewItems] at hcn
  | offer x _ IH =>
    rw [Offer_length]
    exact Offer_heap V IH x
  | poll hr hp IH =>
    rename_i l r l'
    obtain ⟨h0, _, _⟩ := heapPop_some hp
    obtain ⟨l'', hp', hh'⟩ := heapPop_spec V IH h0
    rw [hp] at hp'
    have : l' = l'' := congrArg Prod.snd (Option.some.inj hp')
    rw [this]
    exact hh'
  | remove nativeEq equalsFn x hr hrem IH =>
    rename_i l b l'
    cases b with
    | true =>
      obtain ⟨i, hi, hl'⟩ := Remove_some_true hrem
      rw [hl']
      exact (heapRemoveAt_spec V IH hi).2.2
    | false =>
      rw [Remove_some_false hrem]
      exact IH

theorem reachable_insertAll (cmp : E → E → Int) (xs : List E) :
    Reachable cmp (insertAll cmp xs) := by
  suffices H : ∀ (xs : List E) (l : List E), Reachable cmp l →
      Reachable cmp (xs.foldl (fun l x => (Offer cmp l x).2) l) from
    H xs NewItems Reachable.nil
  intro xs
  induction xs with
  | nil => exact fun l h => h
  | cons x xs IH =>
    intro l h
    exact IH _ (Reachable.offer x h)

/-! ## DefaultComparator lemmas -/

theorem wrap64_eq_self {x : Int} (h1 : -(2 ^ 63) ≤ x) (h2 : x < 2 ^ 63) :
    wrap64 x = x := by
  unfold wrap64
  omega

theorem stringsCompareAux_neg :
    ∀ x y : List Char, stringsCompareAux x y < 0 ↔ List.Lex (· < ·) x y := by
  intro x
  induction x with
  | nil =>
    intro y
    cases y with
    | nil =>
      rw [stringsCompareAux]
      exact iff_of_false (by omega) (fun h => by cases h)
    | cons b bs =>
      rw [stringsCompareAux]
      exact iff_of_true (by omega) List.Lex.nil
  | cons a as IH =>
    intro y
    cases y with
    | nil =>
      rw [stringsCompareAux]
      exact iff_of_false (by omega) (fun h => by cases h)
    | cons b bs =>
      rw [stringsCompareAux]
      by_cases h1 : a < b
      · rw [if_pos h1]
        exact iff_of_true (by omega) (List.Lex.rel h1)
      rw [if_neg h1]
      by_cases h2 : b < a
      · rw [if_pos h2]
        refine iff_of_false (by omega) (fun h => ?_)
        cases h with
        | cons h' => exact absurd h2 (lt_irrefl _)
        | rel hr => exact h1 hr
      rw [if_neg h2]
      have hab : a = b := le_antisymm (not_lt.mp h2) (not_lt.mp h1)
      subst hab
      constructor
      · intro h
        exact List.Lex.cons ((IH bs).mp h)
      · intro h
        cases h with
        | cons h' => exact (IH bs).mpr h'
        | rel hr => exact absurd hr h1

theorem stringsCompareAux_zero :
    ∀ x y : List Char, stringsCompareAux x y = 0 ↔ x = y := by
  intro x
  induction x with
  | nil =>
    intro y
    cases y with
    | nil => simp [stringsCompareAux]
    | cons b bs => simp [stringsCompareAux]
  | cons a as IH =>
    intro y
    cases y with
    | nil => simp [stringsCompareAux]
    | cons b bs =>
      rw [stringsCompareAux]
      by_cases h1 : a < b
      · rw [if_pos h1]
        exact iff_of_false (by omega) (by simp; intro hab _; exact absurd (hab ▸ h1) (lt_irrefl b))
      rw [if_neg h1]
      by_cases h2 : b < a
      · rw [if_pos h2]
        exact iff_of_false (by omega) (by simp; intro hab _; exact absurd (hab ▸ h2) (lt_irrefl b))
      rw [if_neg h2]
      have hab : a = b := le_antisymm (not_lt.mp h2) (not_lt.mp h1)
      rw [IH bs, hab]
      simp

theorem stringsCompareAux_antisymm :
    ∀ x y : List Char, stringsCompareAux x y = - stringsCompareAux y x := by
  intro x
  induction x with
  | nil =>
    intro y
    cases y with
    | nil => rfl
    | cons b bs => rfl
  | cons a as IH =>
    intro y
    cases y with
    | nil => rfl
    | cons b bs =>
      rw [stringsCompareAux, stringsCompareAux]
      by_cases h1 : a < b
      · rw [if_pos h1, if_neg (asymm h1), if_pos h1]
      rw [if_neg h1]
      by_cases h2 : b < a
      · rw [if_pos h2, if_pos h2]
        decide
      · rw [if_neg h2, if_neg h2, if_neg h1]
        exact IH bs

theorem subCmp_valid : ValidCmp subCmp := by
  refine ⟨fun a b h => ?_, fun a b h => ?_, fun a b c h => ?_⟩ <;>
    simp only [subCmp] at * <;> omega

/-! ## Size bookkeeping -/

theorem heapRemoveAt_length (cmp : E → E → Int) (l : List E) (i : Nat) :
    (heapRemoveAt cmp l i).length = l.length - 1 := by
  unfold heapRemoveAt
  split
  · simp [List.length_take]
  · split
    · simp [List.length_take, hDown_length, length_hSwap]
    · simp [List.length_take, hUp_length, hDown_length, length_hSwap]

theorem applyOp_size {nativeEq equalsFn : Option (E → E → Bool)} {cmp : E → E → Int}
    {l : List E} {op : QOp E} {l1 : List E} {a r : Nat}
    (h : applyOp nativeEq equalsFn cmp l op = some (l1, a, r)) :
    l1.length + r = l.length + a := by
  cases op with
  | add x =>
    have hp := Option.some.inj h
    have hl1 : l1 = (Add cmp l x).2 := (congrArg Prod.fst hp).symm
    have ha : a = 1 := (congrArg (fun p : List E × Nat × Nat => p.2.1) hp).symm
    have hr : r = 0 := (congrArg (fun p : List E × Nat × Nat => p.2.2) hp).symm
    rw [hl1, ha, hr, Add, Offer_length]
  | offer x =>
    have hp := Option.some.inj h
    have hl1 : l1 = (Offer cmp l x).2 := (congrArg Prod.fst hp).symm
    have ha : a = 1 := (congrArg (fun p : List E × Nat × Nat => p.2.1) hp).symm
    have hr : r = 0 := (congrArg (fun p : List E × Nat × Nat => p.2.2) hp).symm
    rw [hl1, ha, hr, Offer_length]
  | poll =>
    simp only [applyOp] at h
    cases hp : heapPop cmp l with
    | none => simp only [hp] at h; exact absurd h (by simp)
    | some p =>
      obtain ⟨rr, l'⟩ := p
      simp only [hp] at h
      have hq := Option.some.inj h
      have hl1 : l1 = l' := (congrArg Prod.fst hq).symm
      have ha : a = 0 := (congrArg (fun p : List E × Nat × Nat => p.2.1) hq).symm
      have hr : r = 1 := (congrArg (fun p : List E × Nat × Nat => p.2.2) hq).symm
      obtain ⟨_, hlen, _⟩ := heapPop_some hp
      rw [hl1, ha, hr]
      omega
  | remove x =>
    simp only [applyOp] at h
    cases hp : Remove nativeEq equalsFn cmp l x with
    | none => simp only [hp] at h; exact absurd h (by simp)
    | some p =>
      obtain ⟨b, l'⟩ := p
      simp only [hp] at h
      have hq := Option.some.inj h
      have hl1 : l1 = l' := (congrArg Prod.fst hq).symm
      have ha : a = 0 := (congrArg (fun p : List E × Nat × Nat => p.2.1) hq).symm
      have hr : r = if b then 1 else 0 :=
        (congrArg (fun p : List E × Nat × Nat => p.2.2) hq).symm
      cases b with
      | true =>
        obtain ⟨i, hi, hl'⟩ := Remove_some_true hp
        have := heapRemoveAt_length cmp l i
        rw [hl1, ha, hr, hl']
        simp only [if_pos]
        omega
      | false =>
        rw [hl1, Remove_some_false hp, ha, hr]
        simp

theorem runOps_size {nativeEq equalsFn : Option (E → E → Bool)} {cmp : E → E → Int} :
    ∀ (ops : List (QOp E)) (l0 l : List E) (ins rem : Nat),
      runOps nativeEq equalsFn cmp ops l0 = some (l, ins, rem) →
      l.length + rem = l0.length + ins := by
  intro ops
  induction ops with
  | nil =>
    intro l0 l ins rem h
    have hq := Option.some.inj h
    have hl : l = l0 := (congrArg Prod.fst hq).symm
    have ha : ins = 0 := (congrArg (fun p : List E × Nat × Nat => p.2.1) hq).symm
    have hr : rem = 0 := (congrArg (fun p : List E × Nat × Nat => p.2.2) hq).symm
    rw [hl, ha, hr]
  | cons op rest IH =>
    intro l0 l ins rem h
    simp only [runOps] at h
    cases hap : applyOp nativeEq equalsFn cmp l0 op with
    | none => simp only [hap] at h; exact absurd h (by simp)
    | some p =>
      obtain ⟨l1, a, r⟩ := p
      simp only [hap] at h
      cases hrun : runOps nativeEq equalsFn cmp rest l1 with
      | none => simp only [hrun] at h; exact absurd h (by simp)
      | some q =>
        obtain ⟨l2, a2, r2⟩ := q
        simp only [hrun] at h
        have hq := Option.some.inj h
        have hl : l = l2 := (congrArg Prod.fst hq).symm
        have ha : ins = a + a2 := (congrArg (fun p : List E × Nat × Nat => p.2.1) hq).symm
        have hr : rem = r + r2 := (congrArg (fun p : List E × Nat × Nat => p.2.2) hq).symm
        have h1 := applyOp_size hap
        have h2 := IH l1 l2 a2 r2 hrun
        rw [hl, ha, hr]
        omega

theorem drainFuel_succ (cmp : E → E → Int) (fuel : Nat) (l : List E) {r : E}
    {l' : List E} (h : heapPop cmp l = some (r, l')) :
    drainFuel cmp (fuel + 1) l = r :: drainFuel cmp fuel l' := by
  rw [drainFuel, h]

/-! ## The claims -/

/-- Claim C1 (code bug).  The specified behaviour is that `Poll()` on an
empty queue silently returns the zero value of `E`, like `Peek()` does.
`Peek` conforms (second conjunct), but `Poll` on an empty queue panics:
`heap.Pop` computes `n := h.Len() - 1 = -1` and calls `h.Swap(0, -1)`,
an index-out-of-range panic, before the `item == nil` zero-value branch
of `Poll` can ever run — the model therefore yields `none` (fault), not
the zero value. -/
theorem claim1_poll_empty_panics :
    Poll DefaultComparatorInt ([] : List Int) = none ∧
    Peek ([] : List Int) = ((0 : Int), ([] : List Int)) :=
  ⟨rfl, rfl⟩

/-- Claim C4.  With no native equality (`nativeEq = none`) and no
configured equality function, `Remove` and `Contains` fault for every
queue state, including the empty queue; with native equality or a
configured equality function, no fault is raised and the boolean reports
whether a matching element was found. -/
theorem claim4_equality_fault (cmp : E → E → Int) (l : List E) (item : E) :
    (Contains none none l item = none ∧
      Remove none none cmp l item = none) ∧
    (∀ eq : E → E → Bool,
      Contains (some eq) none l item = some (l.any fun v => eq v item) ∧
      ((l.any fun v => eq v item) = true ↔ ∃ v ∈ l, eq v item = true)) ∧
    (∀ f : E → E → Bool,
      Contains none (some f) l item = some (l.any fun v => f v item) ∧
      ((l.any fun v => f v item) = true ↔ ∃ v ∈ l, f v item = true)) ∧
    (∀ eq : E → E → Bool, ∃ b l',
      Remove (some eq) none cmp l item = some (b, l') ∧
      (b = true ↔ ∃ v ∈ l, eq v item = true)) ∧
    (∀ f : E → E → Bool, ∃ b l',
      Remove none (some f) cmp l item = some (b, l') ∧
      (b = true ↔ ∃ v ∈ l, f v item = true)) := by
  refine ⟨⟨rfl, rfl⟩, fun eq => ⟨rfl, List.any_eq_true⟩,
    fun f => ⟨rfl, List.any_eq_true⟩, fun eq => ?_, fun f => ?_⟩
  · cases hf : l.findIdx? (fun v => eq v item) with
    | none =>
      refine ⟨false, l, ?_, ?_⟩
      · simp only [Remove]
        rw [hf]
      · simp only [Bool.false_eq_true, false_iff]
        intro ⟨v, hv, hpv⟩
        have := (List.findIdx?_eq_none_iff.mp hf) v hv
        simp [hpv] at this
    | some i =>
      refine ⟨true, heapRemoveAt cmp l i, ?_, ?_⟩
      · simp only [Remove]
        rw [hf]
      · simp only [true_iff]
        by_contra hno
        have : l.findIdx? (fun v => eq v item) = none := by
          rw [List.findIdx?_eq_none_iff]
          intro v hv
          by_contra hbv
          exact hno ⟨v, hv, by simpa using hbv⟩
        rw [this] at hf
        exact absurd hf (by simp)
  · cases hf : l.findIdx? (fun v => f v item) with
    | none =>
      refine ⟨false, l, ?_, ?_⟩
      · simp only [Remove]
        rw [hf]
      · simp only [Bool.false_eq_true, false_iff]
        intro ⟨v, hv, hpv⟩
        have := (List.findIdx?_eq_none_iff.mp hf) v hv
        simp [hpv] at this
    | some i =>
      refine ⟨true, heapRemoveAt cmp l i, ?_, ?_⟩
      · simp only [Remove]
        rw [hf]
      · simp only [true_iff]
        by_contra hno
        have : l.findIdx? (fun v => f v item) = none := by
          rw [List.findIdx?_eq_none_iff]
          intro v hv
          by_contra hbv
          exact hno ⟨v, hv, by simpa using hbv⟩
        rw [this] at hf
        exact absurd hf (by simp)

/-- Witness for C4: on an empty `int` queue with the type-comparability
flag off and no equality function, both `Contains` and `Remove` fault. -/
theorem claim4_equality_fault_witness :
    Contains (E := Int) none none [] 7 = none ∧
    Remove (E := Int) none none DefaultComparatorInt [] 7 = none :=
  ⟨(claim4_equality_fault DefaultComparatorInt [] 7).1.1,
    (claim4_equality_fault DefaultComparatorInt [] 7).1.2⟩

/-- Claim C5.  The default ordering: ints are compared by (wrapping)
subtraction — and by true subtraction whenever the difference does not
overflow int64; float64 values by the sign of their difference; strings
lexicographically (the comparison is negative, zero or positive exactly
as the first string is less than, equal to or greater than the second in
lexicographic order); and every other element type compares as `0`, all
elements equal. -/
theorem claim5_default_comparator :
    (∀ a b : Int, DefaultComparatorInt a b = wrap64 (a - b) ∧
      (-(2 ^ 63) ≤ a - b → a - b < 2 ^ 63 → DefaultComparatorInt a b = a - b)) ∧
    (∀ a b : ℚ, DefaultComparatorFloat64 a b = qsign (a - b)) ∧
    (∀ a b : String,
      (DefaultComparatorString a b < 0 ↔ a < b) ∧
      (DefaultComparatorString a b = 0 ↔ a = b) ∧
      (0 < DefaultComparatorString a b ↔ b < a)) ∧
    (∀ (T : Type) (a b : T), DefaultComparatorOther a b = 0) := by
  refine ⟨fun a b => ⟨rfl, fun h1 h2 => wrap64_eq_self h1 h2⟩, ?_, ?_, fun T a b => rfl⟩
  · intro a b
    unfold DefaultComparatorFloat64 qsign
    by_cases h1 : a < b
    · rw [if_pos h1, if_pos (sub_neg.mpr h1)]
    rw [if_neg h1, if_neg (fun hc => h1 (sub_neg.mp hc))]
    by_cases h2 : a > b
    · rw [if_pos h2, if_pos (sub_pos.mpr h2)]
    · rw [if_neg h2, if_neg (fun hc => h2 (sub_pos.mp hc))]
  · intro a b
    refine ⟨?_, ?_, ?_⟩
    · rw [String.lt_iff_toList_lt]
      exact stringsCompareAux_neg a.data b.data
    · constructor
      · intro h
        exact String.ext ((stringsCompareAux_zero _ _).mp h)
      · intro h
        rw [h]
        exact (stringsCompareAux_zero _ _).mpr rfl
    · rw [String.lt_iff_toList_lt]
      have hanti := stringsCompareAux_antisymm a.data b.data
      have hn := stringsCompareAux_neg b.data a.data
      show 0 < stringsCompareAux a.data b.data ↔ b.toList < a.toList
      constructor
      · intro h
        exact hn.mp (by omega)
      · intro h
        have := hn.mpr h
        omega

/-- Witness for C5, at concrete inputs of each leg. -/
theorem claim5_default_comparator_witness :
    DefaultComparatorInt 5 3 = 5 - 3 ∧
    DefaultComparatorFloat64 (1 / 2) (3 / 4) = qsign (1 / 2 - 3 / 4) ∧
    (DefaultComparatorString "ab" "b" < 0 ↔ "ab" < "b") ∧
    DefaultComparatorOther true false = 0 :=
  ⟨(claim5_default_comparator.1 5 3).2 (by decide) (by decide),
    claim5_default_comparator.2.1 (1 / 2) (3 / 4),
    (claim5_default_comparator.2.2.1 "ab" "b").1,
    claim5_default_comparator.2.2.2 Bool true false⟩

/-- Claim C6.  `Offer` (and `Add`) return `true` for every queue state
and every item — there is no capacity ceiling — and the insertion
succeeds: the size grows by one and the new multiset of items is the old
one plus the item. -/
theorem claim6_offer_always_succeeds (cmp : E → E → Int) (l : List E) (x : E) :
    (Offer cmp l x).1 = true ∧ (Add cmp l x).1 = true ∧
    Size (Offer cmp l x).2 = Size l + 1 ∧
    ((Offer cmp l x).2 : Multiset E) = x ::ₘ (l : Multiset E) :=
  ⟨rfl, rfl, Offer_length cmp l x, Offer_multiset cmp l x⟩

/-- Claim C7.  `ToArray` returns a copy whose length is `Size()` and
whose elements are exactly the internal items in heap-internal order,
and the call leaves the receiver unchanged (the returned sequence is a
fresh list value, so changes to it cannot reach the queue's storage). -/
theorem claim7_toarray_copy (l : List E) :
    (ToArray l).1.length = Size l ∧ (ToArray l).1 = l ∧ (ToArray l).2 = l :=
  ⟨rfl, rfl, rfl⟩

/-- Claim C10.  `DefaultComparator` subtracts Go ints with 64-bit
wraparound: `-2^63 < 1`, yet comparing them yields a positive result, and
the wrapped comparator admits the strict cycle
`0 ≺ 2^63-1 ≺ -2^63 ≺ 0`, so it is not a valid strict weak ordering over
the full int range. -/
theorem claim10_int_default_not_swo :
    ((-(2 ^ 63) : Int) < 1 ∧ 0 < DefaultComparatorInt (-(2 ^ 63)) 1) ∧
    ¬ ValidCmp DefaultComparatorInt := by
  refine ⟨⟨by decide, by decide⟩, ?_⟩
  rintro ⟨hasym, -, hneg⟩
  have h2 : DefaultComparatorInt (2 ^ 63 - 1) (-(2 ^ 63)) < 0 := by decide
  have h3 : DefaultComparatorInt (-(2 ^ 63)) 0 < 0 := by decide
  rcases hneg (2 ^ 63 - 1) 0 (-(2 ^ 63)) h2 with h5 | h5
  · exact absurd h5 (by decide)
  · have h6 := hasym _ _ h3
    omega

/-- Claim C2.  Under a valid strict weak ordering, the backing array of
any queue reachable by `Add`/`Offer`/`Poll`/`Remove` from a freshly
constructed queue satisfies the binary min-heap property: for every
index i with a child at 2i+1 or 2i+2 within bounds,
`compare(items[i], items[child]) <= 0`. -/
theorem claim2_heap_invariant {cmp : E → E → Int} (V : ValidCmp cmp) {l : List E}
    (h : Reachable cmp l) :
    ∀ i j : Nat, (j = 2 * i + 1 ∨ j = 2 * i + 2) → j < l.length →
      cmp (l.getD i default) (l.getD j default) ≤ 0 := by
  intro i j hij hj
  have hh := reachable_heapOn V h
  have hx := hh j (by omega) hj
  have hpar : (j - 1) / 2 = i := by omega
  rw [hpar] at hx
  exact cmp_le_of_lea V hx

/-- Witness for C2: the queue obtained by inserting 3, 2, 1 is reachable
and its root compares ≤ 0 against its first child. -/
theorem claim2_heap_invariant_witness :
    subCmp (q321.getD 0 default) (q321.getD 1 default) ≤ 0 :=
  claim2_heap_invariant subCmp_valid
    (Reachable.offer 1 (Reachable.offer 2 (Reachable.offer 3 Reachable.nil)))
    0 1 (Or.inl rfl)
    (by rw [Offer_length, Offer_length, Offer_length]; simp [NewItems])

/-- Claim C3.  Under a valid strict weak ordering, repeatedly calling
`Poll()` on a queue built by any sequence of insertions yields the
elements in non-decreasing comparator order; in particular inserting
3, 2, 1 under the default int ordering and polling three times returns
1, then 2, then 3. -/
theorem claim3_sorted_extraction {cmp : E → E → Int} (V : ValidCmp cmp) (xs : List E) :
    List.Chain' (fun a b => cmp a b ≤ 0) (drain cmp (insertAll cmp xs)) ∧
    drain DefaultComparatorInt (insertAll DefaultComparatorInt [3, 2, 1]) = [1, 2, 3] := by
  constructor
  · exact drainFuel_sorted V _ _ (le_refl _)
      (reachable_heapOn V (reachable_insertAll cmp xs))
  · -- Scenario A, computed step by step through the sift equations
    have e1 : hUp DefaultComparatorInt [(3 : Int)] 0 = [3] := hUp_zero ..
    have e2 : hUp DefaultComparatorInt [(3 : Int), 2] 1 = [2, 3] := by
      rw [hUp_step _ _ (by decide) (by decide)]
      show hUp DefaultComparatorInt [(2 : Int), 3] 0 = [2, 3]
      exact hUp_zero ..
    have e3 : hUp DefaultComparatorInt [(2 : Int), 3, 1] 2 = [1, 3, 2] := by
      rw [hUp_step _ _ (by decide) (by decide)]
      show hUp DefaultComparatorInt [(1 : Int), 3, 2] 0 = [1, 3, 2]
      exact hUp_zero ..
    have hins : insertAll DefaultComparatorInt [3, 2, 1] = [1, 3, 2] := by
      show (Offer DefaultComparatorInt (Offer DefaultComparatorInt
          (Offer DefaultComparatorInt [] 3).2 2).2 1).2 = [1, 3, 2]
      rw [Offer, Offer, Offer]
      show hUp DefaultComparatorInt ((hUp DefaultComparatorInt
          ((hUp DefaultComparatorInt [3] 0 ++ [2]))
            (hUp DefaultComparatorInt [3] 0).length) ++ [1])
          (hUp DefaultComparatorInt ((hUp DefaultComparatorInt [3] 0 ++ [2]))
            (hUp DefaultComparatorInt [3] 0).length).length = [1, 3, 2]
      rw [e1]
      show hUp DefaultComparatorInt ((hUp DefaultComparatorInt [3, 2] 1) ++ [1])
          (hUp DefaultComparatorInt [3, 2] 1).length = [1, 3, 2]
      rw [e2]
      exact e3
    have p1 : heapPop DefaultComparatorInt [(1 : Int), 3, 2] = some (1, [2, 3]) := by
      unfold heapPop
      rw [if_neg (by decide),
        show hSwap [(1 : Int), 3, 2] 0 ([(1 : Int), 3, 2].length - 1) = [2, 3, 1] from rfl,
        hDown_noswap DefaultComparatorInt _ (by decide) (by decide)]
      rfl
    have p2 : heapPop DefaultComparatorInt [(2 : Int), 3] = some (2, [3]) := by
      unfold heapPop
      rw [if_neg (by decide),
        show hSwap [(2 : Int), 3] 0 ([(2 : Int), 3].length - 1) = [3, 2] from rfl,
        hDown_stop DefaultComparatorInt _ (by decide)]
      rfl
    have p3 : heapPop DefaultComparatorInt [(3 : Int)] = some (3, []) := by
      unfold heapPop
      rw [if_neg (by decide), hDown_stop DefaultComparatorInt _ (by decide)]
      rfl
    rw [hins]
    show drainFuel DefaultComparatorInt (2 + 1) [(1 : Int), 3, 2] = [1, 2, 3]
    rw [drainFuel_succ _ _ _ p1]
    show (1 : Int) :: drainFuel DefaultComparatorInt (1 + 1) [(2 : Int), 3] = [1, 2, 3]
    rw [drainFuel_succ _ _ _ p2]
    show (1 : Int) :: (2 : Int) :: drainFuel DefaultComparatorInt (0 + 1) [(3 : Int)]
      = [1, 2, 3]
    rw [drainFuel_succ _ _ _ p3]
    rfl

/-- Witness for C3: the general sorted-extraction statement applied to
the subtraction ordering on unbounded ints and the insertions 5, 4. -/
theorem claim3_sorted_extraction_witness :
    List.Chain' (fun a b => subCmp a b ≤ 0) (drain subCmp (insertAll subCmp [5, 4])) :=
  (claim3_sorted_extraction subCmp_valid [5, 4]).1

/-- Claim C8.  On a non-empty queue satisfying the heap invariant (with
a valid strict weak ordering), `Peek` leaves the state unchanged and
returns the root `items[0]`, which compares ≤ 0 against every element. -/
theorem claim8_peek_min {cmp : E → E → Int} (V : ValidCmp cmp) {l : List E}
    (hh : HeapOn cmp l l.length) (h0 : 0 < l.length) :
    (Peek l).2 = l ∧ (Peek l).1 = l.getD 0 default ∧
    ∀ x ∈ l, cmp (Peek l).1 x ≤ 0 := by
  have hne : ¬ l.length = 0 := by omega
  refine ⟨by simp only [Peek, if_neg hne], by simp only [Peek, if_neg hne], ?_⟩
  intro x hx
  simp only [Peek, if_neg hne]
  obtain ⟨c, hc, hcx⟩ := List.mem_iff_getElem.mp hx
  have hm := heap_root_min V hh c hc
  rw [List.getD_eq_getElem l default hc, hcx] at hm
  exact cmp_le_of_lea V hm

/-- Witness for C8 on the concrete heap [1, 3, 2]. -/
theorem claim8_peek_min_witness :
    (Peek [(1 : Int), 3, 2]).2 = [1, 3, 2] ∧
    (Peek [(1 : Int), 3, 2]).1 = [(1 : Int), 3, 2].getD 0 default ∧
    ∀ x ∈ [(1 : Int), 3, 2], subCmp (Peek [(1 : Int), 3, 2]).1 x ≤ 0 :=
  claim8_peek_min subCmp_valid
    (by
      intro c hc0 hcn
      simp only [List.length_cons, List.length_nil] at hcn
      interval_cases c <;> (simp only [lea]; decide))
    (by decide)

/-- Claim C9.  Starting from a fresh queue, `Size()` equals the number
of successful insertions minus the number of successful removals and
non-empty polls; each insertion grows the size by exactly one, and each
non-empty poll or successful removal shrinks it by exactly one
(an unsuccessful `Remove` leaves the items unchanged). -/
theorem claim9_size_consistency (nativeEq equalsFn : Option (E → E → Bool))
    (cmp : E → E → Int) :
    (∀ (ops : List (QOp E)) (l : List E) (ins rem : Nat),
      runOps nativeEq equalsFn cmp ops NewItems = some (l, ins, rem) →
      rem ≤ ins ∧ Size l + rem = ins) ∧
    (∀ (l : List E) (x : E),
      Size (Add cmp l x).2 = Size l + 1 ∧ Size (Offer cmp l x).2 = Size l + 1) ∧
    (∀ (l : List E) (r : E) (l' : List E), heapPop cmp l = some (r, l') →
      0 < Size l ∧ Size l' + 1 = Size l) ∧
    (∀ (l : List E) (x : E) (l' : List E),
      Remove nativeEq equalsFn cmp l x = some (true, l') → Size l' + 1 = Size l) ∧
    (∀ (l : List E) (x : E) (l' : List E),
      Remove nativeEq equalsFn cmp l x = some (false, l') → l' = l) := by
  refine ⟨?_, ?_, ?_, ?_, ?_⟩
  · intro ops l ins rem h
    have hsz := runOps_size ops NewItems l ins rem h
    simp only [NewItems, List.length_nil] at hsz
    have : Size l + rem = ins := by
      show l.length + rem = ins
      omega
    exact ⟨by omega, this⟩
  · intro l x
    exact ⟨Offer_length cmp l x, Offer_length cmp l x⟩
  · intro l r l' h
    obtain ⟨h0, hlen, _⟩ := heapPop_some h
    exact ⟨h0, hlen⟩
  · intro l x l' h
    obtain ⟨i, hi, hl'⟩ := Remove_some_true h
    have hr := heapRemoveAt_length cmp l i
    rw [hl']
    show (heapRemoveAt cmp l i).length + 1 = l.length
    omega
  · intro l x l' h
    exact Remove_some_false h

/-- Witness for C9: the trace Offer 5 then Poll, on an int queue. -/
theorem claim9_size_consistency_witness :
    (1 : Nat) ≤ 1 ∧ Size ([] : List Int) + 1 = 1 :=
  (claim9_size_consistency (E := Int) none none subCmp).1
    [QOp.offer 5, QOp.poll] [] 1 1
    (by
      have h1 : (Offer subCmp ([] : List Int) 5).2 = [5] := hUp_zero subCmp [5]
      have h2 : heapPop subCmp [(5 : Int)] = some (5, []) := by
        unfold heapPop
        rw [if_neg (by decide), hDown_stop subCmp _ (by decide)]
        rfl
      simp only [runOps, applyOp, NewItems, h1, h2])

end JavastyleCollection
